import Mathlib

set_option linter.unusedVariables false
set_option linter.unreachableTactic false
set_option linter.unnecessarySeqFocus false
set_option linter.unusedTactic false

/-!
Verification development for a Bitcoin HD-wallet generator.

The program builds a wallet from fresh entropy (BIP-39 mnemonic and seed, BIP-32
master key) and derives one address in each of four formats (legacy P2PKH,
nested SegWit, native SegWit, Taproot) along the fixed account paths
purpose'/0'/0'/0/0 with purpose drawn from 44, 49, 84 and 86.

The wallet orchestration (`NewWallet`, `ExtendMasterKey`, the four
`Derive*Address` functions and the per-wallet block of `main`) is transliterated
from the repository source.  The cryptographic primitives and the BIP-39/BIP-32
building blocks live in audited third-party libraries that the repository only
calls; following the design notes, the primitives (SHA-256, RIPEMD-160,
HMAC-SHA-512, secp256k1 serialization, the Taproot tweak, the randomness pool
and the word list) are capability parameters gathered in `CryptoPrims`, and the
library-level algorithms (entropy validation, mnemonic encoding and decoding,
PBKDF2 seed stretching, master-key creation, child derivation, Base58Check and
Bech32/Bech32m encoding) are modelled from the spec, as marked on each
definition.
-/

/-- Byte strings are modelled as lists of naturals, each entry a byte value below 256. -/
abbrev Bytes := List Nat

/-- Little-endian bit decomposition of a natural number to a fixed width. -/
def natToBitsLE : Nat → Nat → List Bool
  | 0, _ => []
  | k + 1, n => decide (n % 2 = 1) :: natToBitsLE k (n / 2)

/-- Value of a little-endian bit list. -/
def bitsToNatLE : List Bool → Nat
  | [] => 0
  | b :: l => (if b then 1 else 0) + 2 * bitsToNatLE l

/-- Big-endian (most significant bit first) decomposition, as used by BIP-39 bit strings. -/
def natToBitsBE (k n : Nat) : List Bool := (natToBitsLE k n).reverse

/-- Value of a big-endian bit list. -/
def bitsToNat (l : List Bool) : Nat := bitsToNatLE l.reverse

/-- The eight bits of a byte, most significant bit first. -/
def byteToBits (b : Nat) : List Bool := natToBitsBE 8 b

/-- Concatenated bits of a byte string, each byte most significant bit first. -/
def bytesToBits (l : Bytes) : List Bool := (l.map byteToBits).flatten

/-- Fuel-driven chunking helper; cuts a list into pieces of n + 1 elements. -/
def chunksPosGo (n : Nat) : Nat → List α → List (List α)
  | 0, _ => []
  | _, [] => []
  | fuel + 1, a :: l => (a :: l.take n) :: chunksPosGo n fuel (l.drop n)

/-- Cuts a list into consecutive pieces of n + 1 elements (a last ragged piece kept). -/
def chunksPos (n : Nat) (l : List α) : List (List α) := chunksPosGo n l.length l

/-- Bytes of a bit string, grouping eight bits at a time, most significant bit first. -/
def bitsToBytes (bits : List Bool) : Bytes := (chunksPos 7 bits).map bitsToNat

/-- Big-endian value of a byte string. -/
def bytesToNatBE (l : Bytes) : Nat := l.foldl (fun a b => 256 * a + b) 0

/-- Big-endian byte encoding of a natural number to a fixed width. -/
def natToBytesBE : Nat → Nat → Bytes
  | 0, _ => []
  | k + 1, n => natToBytesBE k (n / 256) ++ [n % 256]

/-- Big-endian 4-byte encoding of a 32-bit child index (ser32 of BIP-32). -/
def be32 (n : Nat) : Bytes := [n / 2 ^ 24 % 256, n / 2 ^ 16 % 256, n / 2 ^ 8 % 256, n % 256]

/-- Bytewise xor of two byte strings. -/
def xorBytes (a b : Bytes) : Bytes := List.zipWith Nat.xor a b

/-- Modelled from the spec: the cryptographic and randomness primitives the program
takes from audited libraries (SHA-256, RIPEMD-160, HMAC-SHA-512 keyed then applied
to a message, secp256k1 compressed public-key serialization of a 32-byte private
key, the BIP-341 key-path-only Taproot output-key tweak taking a 33-byte public key
to the 32-byte serialized tweaked x-only key, the system randomness pool giving a
requested number of bytes, and the fixed 2048-entry BIP-39 word list giving the
bytes of each word).  The spec's design notes direct that these be treated as
capability interfaces, so they are parameters of the development. -/
structure CryptoPrims where
  sha256 : Bytes → Bytes
  ripemd160 : Bytes → Bytes
  hmacSHA512 : Bytes → Bytes → Bytes
  pubKeyCompressed : Bytes → Bytes
  taprootTweakNoScript : Bytes → Bytes
  randomBytes : Nat → Bytes
  wordlist : Nat → Bytes

/-- HASH160, the composition RIPEMD160 after SHA256 used by the address encoders. -/
def hash160 (C : CryptoPrims) (x : Bytes) : Bytes := C.ripemd160 (C.sha256 x)

/-- A node of the BIP-32 tree: private key, chain code and tree-position metadata,
mirroring hdkeychain.ExtendedKey as the spec's data model describes it. -/
structure ExtendedKey where
  key : Bytes
  chainCode : Bytes
  depth : Nat
  parentFP : Bytes
  childIndex : Nat
deriving DecidableEq

/-- The Wallet aggregate of the source: entropy, mnemonic, seed and master key. -/
structure Wallet where
  Entropy : Bytes
  Mnemonic : Bytes
  Seed : Bytes
  MasterKey : ExtendedKey
deriving DecidableEq

/-- The per-wallet record assembled by main: the four addresses and the mnemonic. -/
structure Generated where
  P2pkhAddress : Bytes
  P2wpkhP2shAddress : Bytes
  P2wpkhAddress : Bytes
  TaprootAddress : Bytes
  Mnemonic : Bytes
deriving DecidableEq

/-- Order of the secp256k1 curve group. -/
def secpOrder : Nat := 0xFFFFFFFFFFFFFFFFFFFFFFFFFFFFFFFEBAAEDCE6AF48A03BBFD25E8CD0364141

/-- First hardened child index, hdkeychain.HardenedKeyStart = 2^31. -/
def hardenedKeyStart : Nat := 2 ^ 31

/-- The bytes of the string "Bitcoin seed", the HMAC key of master-key creation. -/
def bitcoinSeedKey : Bytes := [66, 105, 116, 99, 111, 105, 110, 32, 115, 101, 101, 100]

/-- The bytes of the string "mnemonic", the salt stem of BIP-39 seed stretching. -/
def mnemonicSalt : Bytes := [109, 110, 101, 109, 111, 110, 105, 99]

/-- The five standardized entropy bit sizes. -/
def validBitSizes : List Nat := [128, 160, 192, 224, 256]

/-- Modelled from the spec: the entropy source (bip39.NewEntropy) draws
bitSize / 8 cryptographically random bytes and fails when bitSize is not one of
the five standardized sizes. -/
def NewEntropy (C : CryptoPrims) (bitSize : Nat) : Except String Bytes :=
  if bitSize ∈ validBitSizes then Except.ok (C.randomBytes (bitSize / 8))
  else Except.error "entropy bit size must be one of 128, 160, 192, 224, 256"

/-- Number of checksum bits of an entropy byte string: its bit length over 32. -/
def checksumBitsOf (entropy : Bytes) : Nat := entropy.length * 8 / 32

/-- Modelled from the spec: the BIP-39 word indices of an entropy byte string.
The checksum is the top bitLength/32 bits of SHA-256 of the entropy; the entropy
bits followed by the checksum bits are split into 11-bit groups, each group read
as an index into the 2048-word list. -/
def mnemonicIndices (C : CryptoPrims) (entropy : Bytes) : List Nat :=
  (chunksPos 10 (bytesToBits entropy ++
    (bytesToBits (C.sha256 entropy)).take (checksumBitsOf entropy))).map bitsToNat

/-- Modelled from the spec: bip39.NewMnemonic maps entropy of a standardized length
to its mnemonic, the word-list entries of the 11-bit groups joined by spaces, and
fails on entropy of any other length. -/
def NewMnemonic (C : CryptoPrims) (entropy : Bytes) : Except String Bytes :=
  if entropy.length * 8 ∈ validBitSizes then
    Except.ok (List.intercalate [32] ((mnemonicIndices C entropy).map C.wordlist))
  else Except.error "entropy length invalid"

/-- Modelled from the spec: the decode direction of the mnemonic codec, at the level
of word indices.  The 11-bit groups are reassembled, the leading 32/33 of the bits
are the entropy, and the remaining bits must equal the top bits of SHA-256 of that
entropy or decoding fails with a checksum mismatch. -/
def decodeIndices (C : CryptoPrims) (idxs : List Nat) : Except String Bytes :=
  let bits := (idxs.map (natToBitsBE 11)).flatten
  let entBits := idxs.length * 11 * 32 / 33
  let entropy := bitsToBytes (bits.take entBits)
  if bits.drop entBits = (bytesToBits (C.sha256 entropy)).take (entBits / 32) then
    Except.ok entropy
  else Except.error "checksum mismatch"

/-- Iteration core of PBKDF2: xor-accumulates k further applications of the PRF. -/
def pbkdf2Iter (prf : Bytes → Bytes → Bytes) (password : Bytes) :
    Nat → Bytes → Bytes → Bytes
  | 0, _, acc => acc
  | k + 1, u, acc => pbkdf2Iter prf password k (prf password u) (xorBytes acc (prf password u))

/-- One PBKDF2 output block: U1 = PRF(password, salt || INT(i)) xor-folded with its
PRF iterates, iters applications in total. -/
def pbkdf2F (prf : Bytes → Bytes → Bytes) (password salt : Bytes) (iters blockIdx : Nat) :
    Bytes :=
  pbkdf2Iter prf password (iters - 1) (prf password (salt ++ be32 blockIdx))
    (prf password (salt ++ be32 blockIdx))

/-- Modelled from the spec: PBKDF2 over a PRF of 64-byte output (HMAC-SHA-512),
concatenating as many blocks as dkLen requires and truncating to dkLen bytes. -/
def pbkdf2 (prf : Bytes → Bytes → Bytes) (password salt : Bytes) (iters dkLen : Nat) :
    Bytes :=
  (((List.range ((dkLen + 63) / 64)).map fun i =>
    pbkdf2F prf password salt iters (i + 1)).flatten).take dkLen

/-- Modelled from the spec: bip39.NewSeed is PBKDF2-HMAC-SHA512 with 2048 rounds,
password the space-joined mnemonic (UTF-8 NFKD normalization is the identity on the
ASCII English word list) and salt the bytes of "mnemonic" followed by the
passphrase, producing 64 bytes. -/
def NewSeed (C : CryptoPrims) (mnemonic passphrase : Bytes) : Bytes :=
  pbkdf2 C.hmacSHA512 mnemonic (mnemonicSalt ++ passphrase) 2048 64

/-- Modelled from the spec: hdkeychain.NewMaster computes HMAC-SHA512 keyed with
"Bitcoin seed" over the seed; the left 32 bytes are the master private key and the
right 32 bytes the master chain code; it fails when the private key is zero or not
below the secp256k1 order. -/
def NewMaster (C : CryptoPrims) (seed : Bytes) : Except String ExtendedKey :=
  let lr := C.hmacSHA512 bitcoinSeedKey seed
  let secretKey := lr.take 32
  let chainCode := lr.drop 32
  if bytesToNatBE secretKey = 0 ∨ secpOrder ≤ bytesToNatBE secretKey then
    Except.error "unusable seed"
  else
    Except.ok
      { key := secretKey, chainCode := chainCode, depth := 0
        parentFP := [0, 0, 0, 0], childIndex := 0 }

/-- Modelled from the spec: standard BIP-32 private child derivation
(hdkeychain.ExtendedKey.Derive).  For a hardened index (at least 2^31) the HMAC
input is 0x00 || parent private key || index, otherwise the parent's compressed
public key || index, keyed by the parent chain code; the left 32 bytes add to the
parent key modulo the curve order to give the child key and the right 32 bytes are
the child chain code; derivation fails when the left value is not below the curve
order or the child key is zero.  Depth grows by one and the parent fingerprint is
the first four bytes of HASH160 of the parent public key. -/
def derive (C : CryptoPrims) (parent : ExtendedKey) (index : Nat) :
    Except String ExtendedKey :=
  let data :=
    if hardenedKeyStart ≤ index then 0 :: (parent.key ++ be32 index)
    else C.pubKeyCompressed parent.key ++ be32 index
  let lr := C.hmacSHA512 parent.chainCode data
  let ilNum := bytesToNatBE (lr.take 32)
  let childNum := (ilNum + bytesToNatBE parent.key) % secpOrder
  if secpOrder ≤ ilNum ∨ childNum = 0 then Except.error "invalid child key"
  else
    Except.ok
      { key := natToBytesBE 32 childNum
        chainCode := lr.drop 32
        depth := parent.depth + 1
        parentFP := (hash160 C (C.pubKeyCompressed parent.key)).take 4
        childIndex := index }

/-- The five child indices ExtendMasterKey feeds to Derive, in call order. -/
def accountPathIndices (bip : Nat) : List Nat :=
  [hardenedKeyStart + bip, hardenedKeyStart, hardenedKeyStart, 0, 0]

/-- Transliteration of NewWallet: entropy, mnemonic, seed with empty passphrase and
master key, each failure wrapped with its stage message. -/
def NewWallet (C : CryptoPrims) (bitSize : Nat) : Except String Wallet :=
  match NewEntropy C bitSize with
  | Except.error e => Except.error ("Error generating entropy: " ++ e)
  | Except.ok entropy =>
    match NewMnemonic C entropy with
    | Except.error e => Except.error ("Error generating mnemonic: " ++ e)
    | Except.ok mnemonic =>
      let seed := NewSeed C mnemonic []
      match NewMaster C seed with
      | Except.error e => Except.error ("Error generating master key: " ++ e)
      | Except.ok masterKey =>
        Except.ok { Entropy := entropy, Mnemonic := mnemonic, Seed := seed
                    MasterKey := masterKey }

/-- Transliteration of Wallet.ExtendMasterKey: the five successive child
derivations from the master key along purpose'/0'/0'/0/0. -/
def ExtendMasterKey (C : CryptoPrims) (w : Wallet) (bip : Nat) :
    Except String ExtendedKey :=
  match derive C w.MasterKey (hardenedKeyStart + bip) with
  | Except.error e => Except.error ("error deriving purpose: " ++ e)
  | Except.ok purpose =>
    match derive C purpose hardenedKeyStart with
    | Except.error e => Except.error ("error deriving coin type: " ++ e)
    | Except.ok coinType =>
      match derive C coinType hardenedKeyStart with
      | Except.error e => Except.error ("error deriving account: " ++ e)
      | Except.ok account =>
        match derive C account 0 with
        | Except.error e => Except.error ("error deriving change: " ++ e)
        | Except.ok change =>
          match derive C change 0 with
          | Except.error e => Except.error ("error deriving address index: " ++ e)
          | Except.ok addressIndex => Except.ok addressIndex

/-- Mainnet pay-to-pubkey-hash version byte. -/
def p2pkhVersionByte : Nat := 0

/-- Mainnet pay-to-script-hash version byte. -/
def p2shVersionByte : Nat := 5

/-- Byte values of the Base58 alphabet. -/
def base58Alphabet : Bytes :=
  "123456789ABCDEFGHJKLMNPQRSTUVWXYZabcdefghijkmnopqrstuvwxyz".data.map Char.toNat

/-- Little-endian Base58 digits of a natural number. -/
def base58DigitsLE : Nat → List Nat
  | 0 => []
  | n + 1 => (n + 1) % 58 :: base58DigitsLE ((n + 1) / 58)
decreasing_by exact Nat.div_lt_self (Nat.succ_pos n) (by decide)

/-- Count of leading zero bytes, each rendered as the character 1 by Base58. -/
def countLeadingZeros : Bytes → Nat
  | [] => 0
  | b :: rest => if b = 0 then countLeadingZeros rest + 1 else 0

/-- Modelled from the spec: raw Base58 rendering of a byte string, a 1 per leading
zero byte followed by the base-58 digits of the remaining big-endian value. -/
def base58Encode (input : Bytes) : Bytes :=
  List.replicate (countLeadingZeros input) 49 ++
    (base58DigitsLE (bytesToNatBE input)).reverse.map (fun d => base58Alphabet.getD d 0)

/-- Modelled from the spec: Base58Check, the version byte followed by the payload
and the first four bytes of double SHA-256 of both, rendered in Base58. -/
def base58CheckEncode (C : CryptoPrims) (version : Nat) (payload : Bytes) : Bytes :=
  base58Encode ((version :: payload) ++
    (C.sha256 (C.sha256 (version :: payload))).take 4)

/-- Byte values of the Bech32 data-character alphabet. -/
def bech32Charset : Bytes := "qpzry9x8gf2tvdw0s3jn54khce6mua7l".data.map Char.toNat

/-- The five Bech32 checksum generator constants. -/
def bech32Gen : List Nat := [0x3b6a57b2, 0x26508e6d, 0x1ea119fa, 0x3d4233dd, 0x2a1462b3]

/-- One step of the Bech32 checksum polymod. -/
def bech32PolymodStep (chk v : Nat) : Nat :=
  (List.range 5).foldl
    (fun acc i => if Nat.testBit (chk >>> 25) i then Nat.xor acc (bech32Gen.getD i 0) else acc)
    (Nat.xor ((Nat.land chk 0x1ffffff) <<< 5) v)

/-- The Bech32 checksum polymod of a 5-bit value sequence. -/
def bech32Polymod (values : List Nat) : Nat := values.foldl bech32PolymodStep 1

/-- The human-readable part expanded for checksumming. -/
def bech32HrpExpand (hrp : Bytes) : List Nat :=
  hrp.map (fun c => c >>> 5) ++ [0] ++ hrp.map (fun c => Nat.land c 31)

/-- Bech32 checksum constant. -/
def bech32Const : Nat := 1

/-- Bech32m checksum constant. -/
def bech32mConst : Nat := 0x2bc830a3

/-- The six checksum characters for the given variant constant, hrp and data. -/
def bech32CreateChecksum (const : Nat) (hrp : Bytes) (data : List Nat) : List Nat :=
  (List.range 6).map fun i =>
    Nat.land (Nat.xor (bech32Polymod (bech32HrpExpand hrp ++ data ++ [0, 0, 0, 0, 0, 0]))
      const >>> (5 * (5 - i))) 31

/-- Modelled from the spec: a Bech32-family string, the hrp, the separator 1 and the
data plus checksum rendered in the data-character alphabet; the variant constant
chooses Bech32 or Bech32m. -/
def bech32EncodeWith (const : Nat) (hrp : Bytes) (data : List Nat) : Bytes :=
  hrp ++ [49] ++
    (data ++ bech32CreateChecksum const hrp data).map (fun v => bech32Charset.getD v 0)

/-- Pads a bit string with zero bits to a multiple of five bits. -/
def padToFive (bits : List Bool) : List Bool :=
  bits ++ List.replicate ((5 - bits.length % 5) % 5) false

/-- The 8-bit-to-5-bit regrouping of a witness program, zero-padded. -/
def convertBits8to5 (b : Bytes) : List Nat :=
  (chunksPos 4 (padToFive (bytesToBits b))).map bitsToNat

/-- Bytes of the mainnet human-readable part "bc". -/
def bcHrp : Bytes := [98, 99]

/-- Modelled from the spec: a segwit address, the witness version followed by the
regrouped program, Bech32 for version 0 and Bech32m for higher versions. -/
def segwitAddrEncode (hrp : Bytes) (version : Nat) (program : Bytes) : Bytes :=
  bech32EncodeWith (if version = 0 then bech32Const else bech32mConst) hrp
    (version :: convertBits8to5 program)

/-- The legacy P2PKH encoder: Base58Check of the P2PKH version byte and HASH160 of
the compressed public key. -/
def legacyEncode (C : CryptoPrims) (leaf : ExtendedKey) : Bytes :=
  base58CheckEncode C p2pkhVersionByte (hash160 C (C.pubKeyCompressed leaf.key))

/-- The nested-SegWit encoder: Base58Check of the P2SH version byte and HASH160 of
the redeem script 0x00 || 0x14 || HASH160 of the compressed public key. -/
def nestedSegwitEncode (C : CryptoPrims) (leaf : ExtendedKey) : Bytes :=
  base58CheckEncode C p2shVersionByte
    (hash160 C (0 :: 20 :: hash160 C (C.pubKeyCompressed leaf.key)))

/-- The native-SegWit encoder: Bech32, hrp "bc", witness version 0, program HASH160
of the compressed public key. -/
def nativeSegwitEncode (C : CryptoPrims) (leaf : ExtendedKey) : Bytes :=
  segwitAddrEncode bcHrp 0 (hash160 C (C.pubKeyCompressed leaf.key))

/-- The Taproot encoder: Bech32m, hrp "bc", witness version 1, program the 32-byte
serialized TapTweak of the compressed public key with no script commitment. -/
def taprootEncode (C : CryptoPrims) (leaf : ExtendedKey) : Bytes :=
  segwitAddrEncode bcHrp 1 (C.taprootTweakNoScript (C.pubKeyCompressed leaf.key))

/-- Transliteration of Wallet.DeriveP2PKHAddress: the purpose-44 leaf rendered by
the library's Address method, Base58Check of version zero and HASH160 of the
compressed public key. -/
def DeriveP2PKHAddress (C : CryptoPrims) (w : Wallet) : Except String Bytes :=
  match ExtendMasterKey C w 44 with
  | Except.error e => Except.error ("error extending master key: " ++ e)
  | Except.ok addressIndex =>
    Except.ok (base58CheckEncode C p2pkhVersionByte
      (hash160 C (C.pubKeyCompressed addressIndex.key)))

/-- Transliteration of Wallet.DeriveP2WPKHInP2SHAddress: the purpose-49 leaf public
key is hashed, wrapped in the witness program script 0x00 0x14 || hash, and the
script hash is rendered in Base58Check under the P2SH version byte. -/
def DeriveP2WPKHInP2SHAddress (C : CryptoPrims) (w : Wallet) : Except String Bytes :=
  match ExtendMasterKey C w 49 with
  | Except.error e => Except.error ("error extending master key: " ++ e)
  | Except.ok addressIndex =>
    let pubKey := C.pubKeyCompressed addressIndex.key
    let pubKeyHash := hash160 C pubKey
    let script := 0 :: 20 :: pubKeyHash
    Except.ok (base58CheckEncode C p2shVersionByte (hash160 C script))

/-- Transliteration of Wallet.DeriveP2WPKHAddress: the purpose-84 leaf public key
hash as a version-0 witness address. -/
def DeriveP2WPKHAddress (C : CryptoPrims) (w : Wallet) : Except String Bytes :=
  match ExtendMasterKey C w 84 with
  | Except.error e => Except.error ("error extending master key: " ++ e)
  | Except.ok addressIndex =>
    let pubKey := C.pubKeyCompressed addressIndex.key
    let pubKeyHash := hash160 C pubKey
    Except.ok (segwitAddrEncode bcHrp 0 pubKeyHash)

/-- Transliteration of Wallet.DeriveTaprootAddress: the purpose-86 leaf public key
tweaked with no script commitment, rendered as a version-1 witness address. -/
def DeriveTaprootAddress (C : CryptoPrims) (w : Wallet) : Except String Bytes :=
  match ExtendMasterKey C w 86 with
  | Except.error e => Except.error ("error extending master key: " ++ e)
  | Except.ok addressIndex =>
    let pubKey := C.pubKeyCompressed addressIndex.key
    let tapKey := C.taprootTweakNoScript pubKey
    Except.ok (segwitAddrEncode bcHrp 1 tapKey)

/-- Transliteration of the per-wallet block of main: the four address derivations
in order, aborting on the first failure, collected with the mnemonic. -/
def deriveAllAddresses (C : CryptoPrims) (w : Wallet) : Except String Generated :=
  match DeriveP2PKHAddress C w with
  | Except.error e => Except.error e
  | Except.ok p2pkhAddress =>
    match DeriveP2WPKHInP2SHAddress C w with
    | Except.error e => Except.error e
    | Except.ok p2wpkhP2shAddress =>
      match DeriveP2WPKHAddress C w with
      | Except.error e => Except.error e
      | Except.ok p2wpkhAddress =>
        match DeriveTaprootAddress C w with
        | Except.error e => Except.error e
        | Except.ok taprootAddress =>
          Except.ok { P2pkhAddress := p2pkhAddress
                      P2wpkhP2shAddress := p2wpkhP2shAddress
                      P2wpkhAddress := p2wpkhAddress
                      TaprootAddress := taprootAddress
                      Mnemonic := w.Mnemonic }

/-- State-passing reading of ExtendMasterKey: the receiver wallet is returned
alongside the result; no statement of the source assigns to the wallet, so it
comes back unchanged. -/
def ExtendMasterKeyS (C : CryptoPrims) (w : Wallet) (bip : Nat) :
    Except String ExtendedKey × Wallet :=
  (ExtendMasterKey C w bip, w)

/-- State-passing reading of DeriveP2PKHAddress. -/
def DeriveP2PKHAddressS (C : CryptoPrims) (w : Wallet) : Except String Bytes × Wallet :=
  (DeriveP2PKHAddress C w, w)

/-- State-passing reading of DeriveP2WPKHInP2SHAddress. -/
def DeriveP2WPKHInP2SHAddressS (C : CryptoPrims) (w : Wallet) :
    Except String Bytes × Wallet :=
  (DeriveP2WPKHInP2SHAddress C w, w)

/-- State-passing reading of DeriveP2WPKHAddress. -/
def DeriveP2WPKHAddressS (C : CryptoPrims) (w : Wallet) : Except String Bytes × Wallet :=
  (DeriveP2WPKHAddress C w, w)

/-- State-passing reading of DeriveTaprootAddress. -/
def DeriveTaprootAddressS (C : CryptoPrims) (w : Wallet) : Except String Bytes × Wallet :=
  (DeriveTaprootAddress C w, w)

/-- State-passing reading of the per-wallet block of main. -/
def deriveAllAddressesS (C : CryptoPrims) (w : Wallet) :
    Except String Generated × Wallet :=
  (deriveAllAddresses C w, w)

/-- A concrete instantiation of the primitives, used to exercise the development on
closed inputs: constant digests, a constant all-ones HMAC and an all-zero
randomness pool. -/
def Cdemo : CryptoPrims where
  sha256 := fun _ => List.replicate 32 0
  ripemd160 := fun _ => List.replicate 20 3
  hmacSHA512 := fun _ _ => List.replicate 64 1
  pubKeyCompressed := fun _ => List.replicate 33 2
  taprootTweakNoScript := fun _ => List.replicate 32 9
  randomBytes := fun n => List.replicate n 0
  wordlist := fun _ => [97]

/-- A second instantiation whose HMAC is constantly zero, so that child derivation
adds nothing to the parent key. -/
def Cdemo2 : CryptoPrims :=
  { Cdemo with hmacSHA512 := fun _ _ => List.replicate 64 0 }

/-- The mnemonic of the all-zero 16-byte entropy under Cdemo. -/
def demoMnemonic : Bytes :=
  List.intercalate [32] ((mnemonicIndices Cdemo (List.replicate 16 0)).map Cdemo.wordlist)

/-- The wallet NewWallet builds from 128-bit entropy under Cdemo. -/
def demoWallet : Wallet where
  Entropy := List.replicate 16 0
  Mnemonic := demoMnemonic
  Seed := NewSeed Cdemo demoMnemonic []
  MasterKey :=
    { key := List.replicate 32 1, chainCode := List.replicate 32 1, depth := 0
      parentFP := [0, 0, 0, 0], childIndex := 0 }

/-- A hand-built wallet for exercising derivation under Cdemo2. -/
def demoWallet2 : Wallet where
  Entropy := []
  Mnemonic := []
  Seed := []
  MasterKey :=
    { key := List.replicate 32 1, chainCode := List.replicate 32 7, depth := 0
      parentFP := [0, 0, 0, 0], childIndex := 0 }

/-- The leaf ExtendMasterKey reaches from demoWallet2 under Cdemo2 at purpose 86. -/
def demoLeaf : ExtendedKey where
  key := List.replicate 32 1
  chainCode := List.replicate 32 0
  depth := 5
  parentFP := [3, 3, 3, 3]
  childIndex := 0

/-- A wallet differing from demoWallet in every field except the master key. -/
def demoWalletB : Wallet where
  Entropy := [1]
  Mnemonic := [2]
  Seed := [3]
  MasterKey := demoWallet.MasterKey
-- appended after base definitions for testing
theorem natToBitsLE_length : ∀ (k n : Nat), (natToBitsLE k n).length = k
  | 0, _ => rfl
  | k + 1, n => by simp [natToBitsLE, natToBitsLE_length k]

theorem bitsToNatLE_lt : ∀ l : List Bool, bitsToNatLE l < 2 ^ l.length
  | [] => by simp [bitsToNatLE]
  | b :: l => by
    have ih := bitsToNatLE_lt l
    simp only [bitsToNatLE, List.length_cons, pow_succ]
    cases b <;> simp <;> omega

theorem natToBitsLE_bitsToNatLE : ∀ l : List Bool, natToBitsLE l.length (bitsToNatLE l) = l
  | [] => rfl
  | b :: l => by
    have ih := natToBitsLE_bitsToNatLE l
    simp only [bitsToNatLE, List.length_cons, natToBitsLE]
    have h2 : ((if b then 1 else 0) + 2 * bitsToNatLE l) / 2 = bitsToNatLE l := by
      cases b <;> simp <;> omega
    have h3 : decide (((if b then 1 else 0) + 2 * bitsToNatLE l) % 2 = 1) = b := by
      cases b <;> simp <;> omega
    rw [h3, h2, ih]

theorem bitsToNatLE_natToBitsLE : ∀ (k n : Nat), bitsToNatLE (natToBitsLE k n) = n % 2 ^ k
  | 0, n => by simp [natToBitsLE, bitsToNatLE, Nat.mod_one]
  | k + 1, n => by
    have ih := bitsToNatLE_natToBitsLE k (n / 2)
    simp only [natToBitsLE, bitsToNatLE, ih]
    rw [pow_succ, Nat.mul_comm (2 ^ k) 2, Nat.mod_mul]
    have hb : (if decide (n % 2 = 1) = true then 1 else 0) = n % 2 := by
      rcases Nat.mod_two_eq_zero_or_one n with h | h <;> simp [h]
    omega

theorem bitsToNat_lt (l : List Bool) : bitsToNat l < 2 ^ l.length := by
  have := bitsToNatLE_lt l.reverse
  simpa [bitsToNat] using this

theorem natToBitsBE_bitsToNat (l : List Bool) : natToBitsBE l.length (bitsToNat l) = l := by
  have := natToBitsLE_bitsToNatLE l.reverse
  simp only [List.length_reverse] at this
  simp [natToBitsBE, bitsToNat, this]

theorem byteToBits_length (b : Nat) : (byteToBits b).length = 8 := by
  simp [byteToBits, natToBitsBE, natToBitsLE_length]

theorem bitsToNat_byteToBits (b : Nat) (hb : b < 256) : bitsToNat (byteToBits b) = b := by
  simp only [byteToBits, natToBitsBE, bitsToNat, List.reverse_reverse]
  rw [bitsToNatLE_natToBitsLE]
  exact Nat.mod_eq_of_lt hb

theorem bytesToBits_length (l : Bytes) : (bytesToBits l).length = 8 * l.length := by
  induction l with
  | nil => rfl
  | cons b t ih =>
    simp [bytesToBits, List.flatten_cons, byteToBits_length] at *
    omega
theorem chunksPosGo_nil (n fuel : Nat) : chunksPosGo n fuel ([] : List α) = [] := by
  cases fuel <;> rfl

theorem chunksPosGo_fuel (n : Nat) : ∀ (fuel₁ fuel₂ : Nat) (l : List α),
    l.length ≤ fuel₁ → l.length ≤ fuel₂ → chunksPosGo n fuel₁ l = chunksPosGo n fuel₂ l := by
  intro fuel₁
  induction fuel₁ with
  | zero =>
    intro fuel₂ l h1 h2
    have : l = [] := List.length_eq_zero.mp (Nat.le_zero.mp h1)
    subst this
    rw [chunksPosGo_nil, chunksPosGo_nil]
  | succ f ih =>
    intro fuel₂ l h1 h2
    cases l with
    | nil => rw [chunksPosGo_nil, chunksPosGo_nil]
    | cons a t =>
      cases fuel₂ with
      | zero => simp at h2
      | succ f₂ =>
        simp only [chunksPosGo]
        congr 1
        apply ih
        · simp only [List.length_drop]
          simp only [List.length_cons] at h1
          omega
        · simp only [List.length_drop]
          simp only [List.length_cons] at h2
          omega

theorem chunksPos_nil (n : Nat) : chunksPos n ([] : List α) = [] := rfl

theorem chunksPos_cons (n : Nat) (a : α) (l : List α) :
    chunksPos n (a :: l) = (a :: l.take n) :: chunksPos n (l.drop n) := by
  show chunksPosGo n (a :: l).length (a :: l) = _
  simp only [List.length_cons, chunksPosGo]
  congr 1
  apply chunksPosGo_fuel
  · simp only [List.length_drop]
    omega
  · exact Nat.le_refl _

theorem chunksPosGo_flatten (n : Nat) : ∀ (fuel : Nat) (l : List α), l.length ≤ fuel →
    (chunksPosGo n fuel l).flatten = l := by
  intro fuel
  induction fuel with
  | zero =>
    intro l h
    have : l = [] := List.length_eq_zero.mp (Nat.le_zero.mp h)
    subst this
    rfl
  | succ f ih =>
    intro l h
    cases l with
    | nil => rw [chunksPosGo_nil]; rfl
    | cons a t =>
      simp only [chunksPosGo, List.flatten_cons]
      rw [ih (t.drop n) (by simp only [List.length_drop]; simp only [List.length_cons] at h; omega)]
      simp [List.take_append_drop]

theorem chunksPos_flatten (n : Nat) (l : List α) : (chunksPos n l).flatten = l :=
  chunksPosGo_flatten n l.length l (Nat.le_refl _)

theorem chunksPosGo_spec (n : Nat) : ∀ (fuel : Nat) (l : List α) (k : Nat), l.length ≤ fuel →
    l.length = (n + 1) * k →
    (chunksPosGo n fuel l).length = k ∧ ∀ c ∈ chunksPosGo n fuel l, c.length = n + 1 := by
  intro fuel
  induction fuel with
  | zero =>
    intro l k h hk
    have hl : l = [] := List.length_eq_zero.mp (Nat.le_zero.mp h)
    subst hl
    simp only [List.length_nil] at hk
    have hk0 : k = 0 := by
      rcases Nat.mul_eq_zero.mp hk.symm with h' | h'
      · omega
      · exact h'
    subst hk0
    exact ⟨rfl, by intro c hc; simp [chunksPosGo_nil] at hc⟩
  | succ f ih =>
    intro l k h hk
    cases l with
    | nil =>
      simp only [List.length_nil] at hk
      have hk0 : k = 0 := by
        rcases Nat.mul_eq_zero.mp hk.symm with h' | h'
        · omega
        · exact h'
      subst hk0
      exact ⟨by rw [chunksPosGo_nil]; rfl, by intro c hc; rw [chunksPosGo_nil] at hc; simp at hc⟩
    | cons a t =>
      cases k with
      | zero => simp at hk
      | succ k' =>
        rw [Nat.mul_succ] at hk
        simp only [List.length_cons] at hk h
        have ht : t.length = (n + 1) * k' + n := by omega
        have hdrop : (t.drop n).length = (n + 1) * k' := by
          simp only [List.length_drop]; omega
        obtain ⟨ihlen, ihmem⟩ := ih (t.drop n) k'
          (by simp only [List.length_drop]; omega) hdrop
        constructor
        · simp only [chunksPosGo, List.length_cons, ihlen]
        · intro c hc
          simp only [chunksPosGo, List.mem_cons] at hc
          rcases hc with rfl | hc
          · simp only [List.length_cons, List.length_take]
            omega
          · exact ihmem c hc

theorem chunksPos_length (n k : Nat) (l : List α) (h : l.length = (n + 1) * k) :
    (chunksPos n l).length = k :=
  (chunksPosGo_spec n l.length l k (Nat.le_refl _) h).1

theorem chunksPos_mem_length (n k : Nat) (l : List α) (h : l.length = (n + 1) * k) :
    ∀ c ∈ chunksPos n l, c.length = n + 1 :=
  (chunksPosGo_spec n l.length l k (Nat.le_refl _) h).2

theorem chunksPos_of_flatten (n : Nat) : ∀ (pieces : List (List α)),
    (∀ c ∈ pieces, c.length = n + 1) → chunksPos n pieces.flatten = pieces := by
  intro pieces
  induction pieces with
  | nil => intro _; rfl
  | cons c ps ih =>
    intro h
    have hc : c.length = n + 1 := h c (List.mem_cons_self c ps)
    cases c with
    | nil => simp at hc
    | cons a rest =>
      have hrest : rest.length = n := by
        simp only [List.length_cons] at hc; omega
      simp only [List.flatten_cons, List.cons_append, chunksPos_cons]
      congr 1
      · rw [List.take_left' hrest]
      · rw [List.drop_left' hrest, ih (fun c hc => h c (List.mem_cons_of_mem _ hc))]
theorem bitsToBytes_bytesToBits (l : Bytes) (hbytes : ∀ x ∈ l, x < 256) :
    bitsToBytes (bytesToBits l) = l := by
  unfold bitsToBytes bytesToBits
  rw [chunksPos_of_flatten 7 (l.map byteToBits)
    (by intro c hc; obtain ⟨b, hb, rfl⟩ := List.mem_map.mp hc; exact byteToBits_length b)]
  rw [List.map_map]
  have hpt : ∀ x ∈ l, (bitsToNat ∘ byteToBits) x = id x :=
    fun x hx => bitsToNat_byteToBits x (hbytes x hx)
  rw [List.map_congr_left hpt, List.map_id]

theorem mnemonic_roundtrip (C : CryptoPrims) (c : Nat) (entropy : Bytes)
    (hcpos : 0 < c) (hc : c ≤ 256)
    (hlen : entropy.length = 4 * c) (hbytes : ∀ x ∈ entropy, x < 256)
    (hsha : (C.sha256 entropy).length = 32) :
    (mnemonicIndices C entropy).length = 3 * c ∧
    (∀ i ∈ mnemonicIndices C entropy, i < 2048) ∧
    decodeIndices C (mnemonicIndices C entropy) = Except.ok entropy := by
  have hcb : checksumBitsOf entropy = c := by
    simp only [checksumBitsOf, hlen]; omega
  have hlenE : (bytesToBits entropy).length = 32 * c := by
    rw [bytesToBits_length, hlen]; omega
  have hlenC : ((bytesToBits (C.sha256 entropy)).take (checksumBitsOf entropy)).length = c := by
    rw [List.length_take, bytesToBits_length, hsha, hcb]; omega
  have hlenA : (bytesToBits entropy ++
      (bytesToBits (C.sha256 entropy)).take (checksumBitsOf entropy)).length = (10 + 1) * (3 * c) := by
    rw [List.length_append, hlenE, hlenC]; omega
  have hchunklen := chunksPos_mem_length 10 (3 * c) _ hlenA
  have hchunks := chunksPos_length 10 (3 * c) _ hlenA
  have hmi : mnemonicIndices C entropy = (chunksPos 10 (bytesToBits entropy ++
      (bytesToBits (C.sha256 entropy)).take (checksumBitsOf entropy))).map bitsToNat := rfl
  refine ⟨?_, ?_, ?_⟩
  · rw [hmi, List.length_map, hchunks]
  · intro i hi
    rw [hmi] at hi
    obtain ⟨ch, hch, rfl⟩ := List.mem_map.mp hi
    have h11 : ch.length = 10 + 1 := hchunklen ch hch
    have := bitsToNat_lt ch
    rw [h11] at this
    exact this
  · rw [hmi]
    have hmapmap : ((chunksPos 10 (bytesToBits entropy ++
        (bytesToBits (C.sha256 entropy)).take (checksumBitsOf entropy))).map bitsToNat).map
          (natToBitsBE 11) =
        chunksPos 10 (bytesToBits entropy ++
        (bytesToBits (C.sha256 entropy)).take (checksumBitsOf entropy)) := by
      rw [List.map_map]
      have hpt : ∀ ch ∈ chunksPos 10 (bytesToBits entropy ++
          (bytesToBits (C.sha256 entropy)).take (checksumBitsOf entropy)),
          (natToBitsBE 11 ∘ bitsToNat) ch = id ch := by
        intro ch hch
        have h11 : ch.length = 10 + 1 := hchunklen ch hch
        show natToBitsBE 11 (bitsToNat ch) = ch
        have := natToBitsBE_bitsToNat ch
        rw [h11] at this
        exact this
      rw [List.map_congr_left hpt, List.map_id]
    simp only [decodeIndices, hmapmap, chunksPos_flatten, List.length_map, hchunks]
    have hent : 3 * c * 11 * 32 / 33 = 32 * c := by omega
    rw [hent, List.take_left' hlenE, List.drop_left' hlenE,
      bitsToBytes_bytesToBits entropy hbytes]
    have h32 : 32 * c / 32 = c := by omega
    rw [h32, hcb]
    simp
theorem mem_validBitSizes (b : Nat) :
    b ∈ validBitSizes ↔ (b = 128 ∨ b = 160 ∨ b = 192 ∨ b = 224 ∨ b = 256) := by
  simp [validBitSizes]

theorem demoHmacConst (k s : Bytes) :
    (Cdemo.hmacSHA512 k s).take 32 = List.replicate 32 1 := rfl

/-- C1 counterexample: concretely at purpose 44, the index sequence that
ExtendMasterKey folds child derivation over makes three hardened steps followed
by two non-hardened ones, not four hardened followed by one. -/
theorem C1_counterexample :
    ((accountPathIndices 44).map fun i => decide (hardenedKeyStart ≤ i)) =
      [true, true, true, false, false] ∧
    ((accountPathIndices 44).map fun i => decide (hardenedKeyStart ≤ i)) ≠
      [true, true, true, true, false] ∧
    (ExtendMasterKey Cdemo2 demoWallet2 44).toOption =
      (List.foldlM (derive Cdemo2) demoWallet2.MasterKey (accountPathIndices 44)).toOption :=
  ⟨by decide, by decide, rfl⟩

/-- C1 (amended): for every wallet and purpose, ExtendMasterKey applies the fixed
path purpose'/0'/0'/0/0, folding child derivation over the five indices of which
the first three are hardened and the last two are not, returning the leaf key. -/
theorem C1_accountPath (C : CryptoPrims) (w : Wallet) (bip : Nat) :
    (ExtendMasterKey C w bip).toOption =
      (List.foldlM (derive C) w.MasterKey (accountPathIndices bip)).toOption ∧
    accountPathIndices bip =
      [hardenedKeyStart + bip, hardenedKeyStart, hardenedKeyStart, 0, 0] ∧
    (((accountPathIndices bip).take 3).all fun i => decide (hardenedKeyStart ≤ i)) = true ∧
    (((accountPathIndices bip).drop 3).all fun i => decide (i < hardenedKeyStart)) = true := by
  refine ⟨?_, rfl, ?_, ?_⟩
  · cases h1 : derive C w.MasterKey (hardenedKeyStart + bip) with
    | error e =>
      simp [ExtendMasterKey, accountPathIndices, List.foldlM, h1, Except.toOption,
        Bind.bind, Except.bind]
    | ok k1 =>
      cases h2 : derive C k1 hardenedKeyStart with
      | error e =>
        simp [ExtendMasterKey, accountPathIndices, List.foldlM, h1, h2, Except.toOption,
          Bind.bind, Except.bind]
      | ok k2 =>
        cases h3 : derive C k2 hardenedKeyStart with
        | error e =>
          simp [ExtendMasterKey, accountPathIndices, List.foldlM, h1, h2, h3,
            Except.toOption, Bind.bind, Except.bind]
        | ok k3 =>
          cases h4 : derive C k3 0 with
          | error e =>
            simp [ExtendMasterKey, accountPathIndices, List.foldlM, h1, h2, h3, h4,
              Except.toOption, Bind.bind, Except.bind]
          | ok k4 =>
            cases h5 : derive C k4 0 with
            | error e =>
              simp [ExtendMasterKey, accountPathIndices, List.foldlM, h1, h2, h3, h4, h5,
                Except.toOption, Bind.bind, Except.bind]
            | ok k5 =>
              simp [ExtendMasterKey, accountPathIndices, List.foldlM, h1, h2, h3, h4, h5,
                Except.toOption, Bind.bind, Except.bind, Pure.pure, Except.pure]
  · simp only [accountPathIndices, List.take, List.all_cons, List.all_nil,
      Bool.and_eq_true, decide_eq_true_eq]
    refine ⟨Nat.le_add_right _ _, Nat.le_refl _, Nat.le_refl _, trivial⟩
  · simp only [accountPathIndices, List.drop, List.all_cons, List.all_nil,
      Bool.and_eq_true, decide_eq_true_eq, hardenedKeyStart]
    norm_num

/-- C2: wallet generation succeeds exactly on the five standardized entropy bit
sizes, given a randomness source honoring the requested length and an HMAC whose
derived master key is usable (the spec's negligible-failure proviso). -/
theorem C2_newWallet_validSizes (C : CryptoPrims) (bitSize : Nat)
    (hr : ∀ n, (C.randomBytes n).length = n)
    (hm : ∀ s, bytesToNatBE ((C.hmacSHA512 bitcoinSeedKey s).take 32) ≠ 0 ∧
               bytesToNatBE ((C.hmacSHA512 bitcoinSeedKey s).take 32) < secpOrder) :
    (NewWallet C bitSize).isOk = true ↔
      (bitSize = 128 ∨ bitSize = 160 ∨ bitSize = 192 ∨ bitSize = 224 ∨ bitSize = 256) := by
  constructor
  · intro h
    by_contra habs
    have hnv : bitSize ∉ validBitSizes := fun hmem => habs ((mem_validBitSizes bitSize).mp hmem)
    have he : NewEntropy C bitSize =
        Except.error "entropy bit size must be one of 128, 160, 192, 224, 256" := by
      unfold NewEntropy
      rw [if_neg hnv]
    unfold NewWallet at h
    rw [he] at h
    simp [Except.isOk, Except.toBool] at h
  · intro hb
    have hv : bitSize ∈ validBitSizes := (mem_validBitSizes bitSize).mpr hb
    have he : NewEntropy C bitSize = Except.ok (C.randomBytes (bitSize / 8)) := by
      unfold NewEntropy
      rw [if_pos hv]
    have hlen8 : (C.randomBytes (bitSize / 8)).length * 8 = bitSize := by
      rw [hr]
      rcases hb with rfl | rfl | rfl | rfl | rfl <;> norm_num
    have hmn : NewMnemonic C (C.randomBytes (bitSize / 8)) =
        Except.ok (List.intercalate [32]
          ((mnemonicIndices C (C.randomBytes (bitSize / 8))).map C.wordlist)) := by
      unfold NewMnemonic
      rw [if_pos (by rw [hlen8]; exact hv)]
    have hms : ∀ s : Bytes, NewMaster C s = Except.ok
        { key := (C.hmacSHA512 bitcoinSeedKey s).take 32
          chainCode := (C.hmacSHA512 bitcoinSeedKey s).drop 32
          depth := 0, parentFP := [0, 0, 0, 0], childIndex := 0 } := by
      intro s
      obtain ⟨h1, h2⟩ := hm s
      unfold NewMaster
      rw [if_neg (by push_neg; exact ⟨h1, by omega⟩)]
    simp only [NewWallet, he, hmn, hms, Except.isOk, Except.toBool]

/-- C2 witness: under the concrete primitives, 128-bit generation succeeds. -/
theorem C2_witness : (NewWallet Cdemo 128).isOk = true :=
  (C2_newWallet_validSizes Cdemo 128
    (fun n => List.length_replicate n 0)
    (fun s => by rw [demoHmacConst]; exact ⟨by decide, by decide⟩)).mpr (Or.inl rfl)

/-- C5: master-key creation takes the left half of HMAC-SHA512 keyed "Bitcoin seed"
over a 64-byte seed as the private key and the right half as the chain code, and
errors exactly when that private key is zero or at least the curve order. -/
theorem C5_masterKey (C : CryptoPrims) (seed : Bytes) (h64 : seed.length = 64) :
    (NewMaster C seed = Except.error "unusable seed" ∨
      NewMaster C seed = Except.ok
        { key := (C.hmacSHA512 bitcoinSeedKey seed).take 32
          chainCode := (C.hmacSHA512 bitcoinSeedKey seed).drop 32
          depth := 0, parentFP := [0, 0, 0, 0], childIndex := 0 }) ∧
    (NewMaster C seed = Except.error "unusable seed" ↔
      (bytesToNatBE ((C.hmacSHA512 bitcoinSeedKey seed).take 32) = 0 ∨
       secpOrder ≤ bytesToNatBE ((C.hmacSHA512 bitcoinSeedKey seed).take 32))) := by
  unfold NewMaster
  by_cases h : bytesToNatBE ((C.hmacSHA512 bitcoinSeedKey seed).take 32) = 0 ∨
      secpOrder ≤ bytesToNatBE ((C.hmacSHA512 bitcoinSeedKey seed).take 32)
  · rw [if_pos h]
    exact ⟨Or.inl rfl, ⟨fun _ => h, fun _ => rfl⟩⟩
  · rw [if_neg h]
    exact ⟨Or.inr rfl, iff_of_false (by simp) h⟩

/-- C5 witness: the characterization instantiated at the all-zero 64-byte seed. -/
theorem C5_witness :
    (NewMaster Cdemo (List.replicate 64 0) = Except.error "unusable seed" ∨
      NewMaster Cdemo (List.replicate 64 0) = Except.ok
        { key := (Cdemo.hmacSHA512 bitcoinSeedKey (List.replicate 64 0)).take 32
          chainCode := (Cdemo.hmacSHA512 bitcoinSeedKey (List.replicate 64 0)).drop 32
          depth := 0, parentFP := [0, 0, 0, 0], childIndex := 0 }) ∧
    (NewMaster Cdemo (List.replicate 64 0) = Except.error "unusable seed" ↔
      (bytesToNatBE ((Cdemo.hmacSHA512 bitcoinSeedKey (List.replicate 64 0)).take 32) = 0 ∨
       secpOrder ≤ bytesToNatBE
         ((Cdemo.hmacSHA512 bitcoinSeedKey (List.replicate 64 0)).take 32))) :=
  C5_masterKey Cdemo (List.replicate 64 0) rfl
theorem pbkdf2Iter_length (prf : Bytes → Bytes → Bytes) (password : Bytes)
    (hp : ∀ k m, (prf k m).length = 64) :
    ∀ (k : Nat) (u acc : Bytes), acc.length = 64 → (pbkdf2Iter prf password k u acc).length = 64
  | 0, u, acc, h => h
  | k + 1, u, acc, h => by
    simp only [pbkdf2Iter]
    apply pbkdf2Iter_length prf password hp k
    simp [xorBytes, List.length_zipWith, h, hp]

theorem pbkdf2_length (prf : Bytes → Bytes → Bytes) (password salt : Bytes) (iters : Nat)
    (hp : ∀ k m, (prf k m).length = 64) :
    (pbkdf2 prf password salt iters 64).length = 64 := by
  have hF : (pbkdf2F prf password salt iters 1).length = 64 :=
    pbkdf2Iter_length prf password hp (iters - 1) _ _ (hp _ _)
  have h1 : pbkdf2 prf password salt iters 64 = (pbkdf2F prf password salt iters 1).take 64 := by
    simp [pbkdf2, List.range_succ, List.range_zero]
  rw [h1, List.length_take, hF]
  exact min_self 64

/-- C3: for entropy of any of the five standardized bit sizes b, the mnemonic has
exactly b/32*3 word indices, each indexing the 2048-entry word list; decoding them
re-validates the checksum and recovers the entropy; and NewMnemonic renders
exactly these indices through the word list, space-joined. -/
theorem C3_mnemonic_structure (C : CryptoPrims) (b : Nat) (entropy : Bytes)
    (hb : b = 128 ∨ b = 160 ∨ b = 192 ∨ b = 224 ∨ b = 256)
    (hlen : entropy.length * 8 = b)
    (hbytes : ∀ x ∈ entropy, x < 256)
    (hsha : ∀ e, (C.sha256 e).length = 32) :
    (mnemonicIndices C entropy).length = b / 32 * 3 ∧
    ((mnemonicIndices C entropy).all fun i => decide (i < 2048)) = true ∧
    decodeIndices C (mnemonicIndices C entropy) = Except.ok entropy ∧
    NewMnemonic C entropy =
      Except.ok (List.intercalate [32] ((mnemonicIndices C entropy).map C.wordlist)) := by
  have hfacts : b % 32 = 0 ∧ 128 ≤ b ∧ b ≤ 256 := by
    rcases hb with rfl | rfl | rfl | rfl | rfl <;> norm_num
  have hcore := mnemonic_roundtrip C (b / 32) entropy (by omega) (by omega)
    (by omega) hbytes (hsha entropy)
  obtain ⟨hlen3, hmem, hdec⟩ := hcore
  refine ⟨by omega, ?_, hdec, ?_⟩
  · rw [List.all_eq_true]
    intro i hi
    exact decide_eq_true (hmem i hi)
  · unfold NewMnemonic
    rw [if_pos (by rw [hlen]; exact (mem_validBitSizes b).mpr hb)]

/-- C3 witness: the structure theorem applied to the all-zero 16-byte entropy. -/
theorem C3_witness :
    (mnemonicIndices Cdemo (List.replicate 16 0)).length = 128 / 32 * 3 ∧
    ((mnemonicIndices Cdemo (List.replicate 16 0)).all fun i => decide (i < 2048)) = true ∧
    decodeIndices Cdemo (mnemonicIndices Cdemo (List.replicate 16 0)) =
      Except.ok (List.replicate 16 0) ∧
    NewMnemonic Cdemo (List.replicate 16 0) =
      Except.ok (List.intercalate [32]
        ((mnemonicIndices Cdemo (List.replicate 16 0)).map Cdemo.wordlist)) :=
  C3_mnemonic_structure Cdemo 128 (List.replicate 16 0) (Or.inl rfl) rfl
    (by decide) (fun e => rfl)

/-- C4: the seed of every successfully generated wallet is the PBKDF2-HMAC-SHA512
stretch of its mnemonic with 2048 rounds and salt the bytes of "mnemonic" followed
by the empty passphrase, and it is exactly 64 bytes long. -/
theorem C4_seed_pbkdf2 (C : CryptoPrims) (bitSize : Nat) (w : Wallet)
    (hw : NewWallet C bitSize = Except.ok w)
    (hl : ∀ k m, (C.hmacSHA512 k m).length = 64) :
    w.Seed = NewSeed C w.Mnemonic [] ∧
    NewSeed C w.Mnemonic [] =
      pbkdf2 C.hmacSHA512 w.Mnemonic (mnemonicSalt ++ []) 2048 64 ∧
    w.Seed.length = 64 := by
  unfold NewWallet at hw
  cases he : NewEntropy C bitSize with
  | error e => simp only [he] at hw; simp at hw
  | ok entropy =>
    simp only [he] at hw
    cases hmn : NewMnemonic C entropy with
    | error e => simp only [hmn] at hw; simp at hw
    | ok mnemonic =>
      simp only [hmn] at hw
      cases hms : NewMaster C (NewSeed C mnemonic []) with
      | error e => simp only [hms] at hw; simp at hw
      | ok mk =>
        simp only [hms, Except.ok.injEq] at hw
        subst hw
        refine ⟨by simp only [], by simp only [NewSeed], ?_⟩
        simp only []
        unfold NewSeed
        exact pbkdf2_length C.hmacSHA512 mnemonic (mnemonicSalt ++ []) 2048 hl

/-- C4 witness: the seed characterization at the wallet built from 128-bit
all-zero entropy under the concrete primitives. -/
theorem C4_witness :
    demoWallet.Seed = NewSeed Cdemo demoWallet.Mnemonic [] ∧
    NewSeed Cdemo demoWallet.Mnemonic [] =
      pbkdf2 Cdemo.hmacSHA512 demoWallet.Mnemonic (mnemonicSalt ++ []) 2048 64 ∧
    demoWallet.Seed.length = 64 :=
  C4_seed_pbkdf2 Cdemo 128 demoWallet rfl (fun k m => rfl)

/-- C6: the Taproot address is the purpose-86 leaf's public key tweaked with no
script commitment, rendered in Bech32m with hrp "bc" and witness version 1, the
program being the 32-byte tweaked x-only key. -/
theorem C6_taproot (C : CryptoPrims) (w : Wallet) (leaf : ExtendedKey)
    (ht : ∀ p, (C.taprootTweakNoScript p).length = 32) :
    (DeriveTaprootAddress C w).toOption =
      (ExtendMasterKey C w 86).toOption.map (taprootEncode C) ∧
    taprootEncode C leaf =
      bech32EncodeWith bech32mConst bcHrp
        (1 :: convertBits8to5 (C.taprootTweakNoScript (C.pubKeyCompressed leaf.key))) ∧
    (C.taprootTweakNoScript (C.pubKeyCompressed leaf.key)).length = 32 := by
  refine ⟨?_, ?_, ht _⟩
  · cases h : ExtendMasterKey C w 86 with
    | error e => simp [DeriveTaprootAddress, h, Except.toOption]
    | ok a => simp [DeriveTaprootAddress, h, Except.toOption, taprootEncode]
  · simp [taprootEncode, segwitAddrEncode]

/-- C6 witness: the Taproot characterization at the concrete wallet and leaf. -/
theorem C6_witness :
    (DeriveTaprootAddress Cdemo demoWallet).toOption =
      (ExtendMasterKey Cdemo demoWallet 86).toOption.map (taprootEncode Cdemo) ∧
    taprootEncode Cdemo demoLeaf =
      bech32EncodeWith bech32mConst bcHrp
        (1 :: convertBits8to5 (Cdemo.taprootTweakNoScript
          (Cdemo.pubKeyCompressed demoLeaf.key))) ∧
    (Cdemo.taprootTweakNoScript (Cdemo.pubKeyCompressed demoLeaf.key)).length = 32 :=
  C6_taproot Cdemo demoWallet demoLeaf (fun p => rfl)

/-- C7: the nested-SegWit address is Base58Check of the mainnet P2SH version byte
and HASH160 of the redeem script 0x00 || 0x14 || HASH160 of the purpose-49 leaf's
compressed public key, with HASH160 the composition of RIPEMD160 after SHA256. -/
theorem C7_nestedSegwit (C : CryptoPrims) (w : Wallet) (leaf : ExtendedKey) :
    (DeriveP2WPKHInP2SHAddress C w).toOption =
      (ExtendMasterKey C w 49).toOption.map (nestedSegwitEncode C) ∧
    nestedSegwitEncode C leaf =
      base58CheckEncode C p2shVersionByte
        (hash160 C (0 :: 20 :: hash160 C (C.pubKeyCompressed leaf.key))) ∧
    hash160 C (C.pubKeyCompressed leaf.key) =
      C.ripemd160 (C.sha256 (C.pubKeyCompressed leaf.key)) := by
  refine ⟨?_, rfl, rfl⟩
  cases h : ExtendMasterKey C w 49 with
  | error e => simp [DeriveP2WPKHInP2SHAddress, h, Except.toOption]
  | ok a => simp [DeriveP2WPKHInP2SHAddress, h, Except.toOption, nestedSegwitEncode]

/-- C8: address derivation reads only the master key: wallets with equal master
keys give identical results for all four derivation functions, so repeated calls
on one wallet agree. -/
theorem C8_determinism (C : CryptoPrims) (w₁ w₂ : Wallet)
    (h : w₁.MasterKey = w₂.MasterKey) :
    DeriveP2PKHAddress C w₁ = DeriveP2PKHAddress C w₂ ∧
    DeriveP2WPKHInP2SHAddress C w₁ = DeriveP2WPKHInP2SHAddress C w₂ ∧
    DeriveP2WPKHAddress C w₁ = DeriveP2WPKHAddress C w₂ ∧
    DeriveTaprootAddress C w₁ = DeriveTaprootAddress C w₂ := by
  have hext : ∀ bip, ExtendMasterKey C w₁ bip = ExtendMasterKey C w₂ bip := by
    intro bip
    unfold ExtendMasterKey
    rw [h]
  refine ⟨?_, ?_, ?_, ?_⟩ <;>
    simp only [DeriveP2PKHAddress, DeriveP2WPKHInP2SHAddress, DeriveP2WPKHAddress,
      DeriveTaprootAddress, hext]

/-- C8 witness: two wallets agreeing only on the master key derive the same
addresses in every format. -/
theorem C8_witness :
    DeriveP2PKHAddress Cdemo demoWallet = DeriveP2PKHAddress Cdemo demoWalletB ∧
    DeriveP2WPKHInP2SHAddress Cdemo demoWallet = DeriveP2WPKHInP2SHAddress Cdemo demoWalletB ∧
    DeriveP2WPKHAddress Cdemo demoWallet = DeriveP2WPKHAddress Cdemo demoWalletB ∧
    DeriveTaprootAddress Cdemo demoWallet = DeriveTaprootAddress Cdemo demoWalletB :=
  C8_determinism Cdemo demoWallet demoWalletB rfl

/-- C9: deriving all four formats runs the account-path derivation once per
purpose 44, 49, 84, 86, each leaf fed to the encoder of that purpose's format. -/
theorem C9_deriveAll (C : CryptoPrims) (w : Wallet) :
    (deriveAllAddresses C w).toOption =
      ((ExtendMasterKey C w 44).toOption.bind fun l44 =>
       (ExtendMasterKey C w 49).toOption.bind fun l49 =>
       (ExtendMasterKey C w 84).toOption.bind fun l84 =>
       (ExtendMasterKey C w 86).toOption.map fun l86 =>
        { P2pkhAddress := legacyEncode C l44
          P2wpkhP2shAddress := nestedSegwitEncode C l49
          P2wpkhAddress := nativeSegwitEncode C l84
          TaprootAddress := taprootEncode C l86
          Mnemonic := w.Mnemonic }) := by
  cases h44 : ExtendMasterKey C w 44 with
  | error e =>
    simp [deriveAllAddresses, DeriveP2PKHAddress, h44, Except.toOption]
  | ok l44 =>
    cases h49 : ExtendMasterKey C w 49 with
    | error e =>
      simp [deriveAllAddresses, DeriveP2PKHAddress, DeriveP2WPKHInP2SHAddress, h44, h49,
        Except.toOption]
    | ok l49 =>
      cases h84 : ExtendMasterKey C w 84 with
      | error e =>
        simp [deriveAllAddresses, DeriveP2PKHAddress, DeriveP2WPKHInP2SHAddress,
          DeriveP2WPKHAddress, h44, h49, h84, Except.toOption]
      | ok l84 =>
        cases h86 : ExtendMasterKey C w 86 with
        | error e =>
          simp [deriveAllAddresses, DeriveP2PKHAddress, DeriveP2WPKHInP2SHAddress,
            DeriveP2WPKHAddress, DeriveTaprootAddress, h44, h49, h84, h86, Except.toOption]
        | ok l86 =>
          simp [deriveAllAddresses, DeriveP2PKHAddress, DeriveP2WPKHInP2SHAddress,
            DeriveP2WPKHAddress, DeriveTaprootAddress, h44, h49, h84, h86, Except.toOption,
            legacyEncode, nestedSegwitEncode, nativeSegwitEncode, taprootEncode]

theorem derive_depth (C : CryptoPrims) (p : ExtendedKey) (i : Nat) (k : ExtendedKey)
    (h : derive C p i = Except.ok k) : k.depth = p.depth + 1 := by
  simp only [derive] at h
  split at h
  · split at h
    · simp at h
    · simp only [Except.ok.injEq] at h
      subst h
      rfl
  · split at h
    · simp at h
    · simp only [Except.ok.injEq] at h
      subst h
      rfl

/-- C10: derivation operations leave the wallet unchanged (its four fields
included) and the leaf produced by the account-path derivation is a fresh key,
five levels deeper than the stored master key and distinct from it. -/
theorem C10_frame (C : CryptoPrims) (w : Wallet) (bip : Nat) (k : ExtendedKey)
    (hk : ExtendMasterKey C w bip = Except.ok k) :
    (ExtendMasterKeyS C w bip).2 = w ∧
    (DeriveP2PKHAddressS C w).2 = w ∧
    (DeriveP2WPKHInP2SHAddressS C w).2 = w ∧
    (DeriveP2WPKHAddressS C w).2 = w ∧
    (DeriveTaprootAddressS C w).2 = w ∧
    (deriveAllAddressesS C w).2 = w ∧
    k.depth = w.MasterKey.depth + 5 ∧
    k ≠ w.MasterKey := by
  have hdepth : k.depth = w.MasterKey.depth + 5 := by
    unfold ExtendMasterKey at hk
    cases h1 : derive C w.MasterKey (hardenedKeyStart + bip) with
    | error e => simp only [h1] at hk; simp at hk
    | ok k1 =>
      simp only [h1] at hk
      cases h2 : derive C k1 hardenedKeyStart with
      | error e => simp only [h2] at hk; simp at hk
      | ok k2 =>
        simp only [h2] at hk
        cases h3 : derive C k2 hardenedKeyStart with
        | error e => simp only [h3] at hk; simp at hk
        | ok k3 =>
          simp only [h3] at hk
          cases h4 : derive C k3 0 with
          | error e => simp only [h4] at hk; simp at hk
          | ok k4 =>
            simp only [h4] at hk
            cases h5 : derive C k4 0 with
            | error e => simp only [h5] at hk; simp at hk
            | ok k5 =>
              simp only [h5, Except.ok.injEq] at hk
              subst hk
              have d1 := derive_depth C w.MasterKey _ _ h1
              have d2 := derive_depth C k1 _ _ h2
              have d3 := derive_depth C k2 _ _ h3
              have d4 := derive_depth C k3 _ _ h4
              have d5 := derive_depth C k4 _ _ h5
              omega
  refine ⟨rfl, rfl, rfl, rfl, rfl, rfl, hdepth, ?_⟩
  intro hEq
  rw [hEq] at hdepth
  omega

/-- C10 witness: the frame and freshness facts at the concrete wallet, with the
purpose-86 leaf computed explicitly. -/
theorem C10_witness :
    (ExtendMasterKeyS Cdemo2 demoWallet2 86).2 = demoWallet2 ∧
    (DeriveP2PKHAddressS Cdemo2 demoWallet2).2 = demoWallet2 ∧
    (DeriveP2WPKHInP2SHAddressS Cdemo2 demoWallet2).2 = demoWallet2 ∧
    (DeriveP2WPKHAddressS Cdemo2 demoWallet2).2 = demoWallet2 ∧
    (DeriveTaprootAddressS Cdemo2 demoWallet2).2 = demoWallet2 ∧
    (deriveAllAddressesS Cdemo2 demoWallet2).2 = demoWallet2 ∧
    demoLeaf.depth = demoWallet2.MasterKey.depth + 5 ∧
    demoLeaf ≠ demoWallet2.MasterKey :=
  C10_frame Cdemo2 demoWallet2 86 demoLeaf rfl
